import Mathlib

/-!
# Verification of the ImageFlow gallery core

Shallow embedding of the algorithmic core of the ImageFlow image gallery
(`FastImageCache`, the masonry layout engine `calculate_layout`, the viewport
renderer `update_visible_thumbs`, the thumbnail worker, the aspect-ratio
resolver, zoom and navigation state), together with proofs of the behavioural
properties claimed for it.

Conventions of the embedding:
* Python `OrderedDict` state is modelled as an association list whose front is
  the oldest position (`popitem(last=False)` pops the front, `move_to_end`
  moves to the back, assignment to an existing key keeps its position).
* Python ints are `Int`/`Nat`; Python floats arising from exact small-step
  arithmetic (zoom levels, aspect ratios, scroll fractions) are modelled as
  `ℚ`; `int(x)` truncation toward zero is `pyint`; `//` floor division is
  `Int.fdiv`.
* Mutable `self` state consulted by a method is passed explicitly, and the
  image decoder is an explicit oracle `Nat → Option (ℤ × ℤ)` giving a source
  image's (width, height) or `none` on decode failure.
-/

namespace ImageFlow

/-- Truncation toward zero of a rational, the behaviour of Python `int(x)`. -/
def pyint (q : ℚ) : ℤ :=
  if 0 ≤ q then ⌊q⌋ else -⌊-q⌋

/-! ## Association-list primitives shared by the `OrderedDict`/`dict` models -/

/-- First-match lookup in an association list (Python `d[k]` / `k in d`). -/
def lookup {β : Type} : List (Nat × β) → Nat → Option β
  | [], _ => none
  | e :: t, k => if e.1 = k then some e.2 else lookup t k

/-- Remove the first entry with the given key (the unique one, for dict state). -/
def removeKey {β : Type} : List (Nat × β) → Nat → List (Nat × β)
  | [], _ => []
  | e :: t, k => if e.1 = k then t else e :: removeKey t k

/-- Overwrite the value of the first entry with the given key, keeping its
position — the `OrderedDict` semantics of assignment to an existing key. -/
def overwrite {β : Type} : List (Nat × β) → Nat → β → List (Nat × β)
  | [], _, _ => []
  | e :: t, k, v => if e.1 = k then (k, v) :: t else e :: overwrite t k v

/-- The keys of an association list, in order. -/
def keys {β : Type} (l : List (Nat × β)) : List Nat :=
  l.map Prod.fst

theorem lookup_eq_none_iff {β : Type} (l : List (Nat × β)) (k : Nat) :
    lookup l k = none ↔ k ∉ keys l := by
  induction l with
  | nil => simp [lookup, keys]
  | cons e t ih =>
    by_cases h : e.1 = k
    · simp only [lookup, h, if_pos]
      simp [keys, h.symm]
    · have hstep : lookup (e :: t) k = lookup t k := by simp [lookup, h]
      rw [hstep, ih]
      simp only [keys, List.map_cons, List.mem_cons] at *
      constructor
      · intro hk hmem
        rcases hmem with hmem | hmem
        · exact h hmem.symm
        · exact hk hmem
      · intro hk hmem
        exact hk (Or.inr hmem)

theorem lookup_isSome_iff {β : Type} (l : List (Nat × β)) (k : Nat) :
    (lookup l k).isSome = true ↔ k ∈ keys l := by
  rw [Option.isSome_iff_ne_none]
  constructor
  · intro h
    by_contra hk
    exact h ((lookup_eq_none_iff l k).2 hk)
  · intro h hn
    exact ((lookup_eq_none_iff l k).1 hn) h

theorem keys_overwrite {β : Type} (l : List (Nat × β)) (k : Nat) (v : β) :
    keys (overwrite l k v) = keys l := by
  induction l with
  | nil => rfl
  | cons e t ih =>
    by_cases h : e.1 = k <;> simp [overwrite, keys, h] at * <;> simp [ih]

theorem length_overwrite {β : Type} (l : List (Nat × β)) (k : Nat) (v : β) :
    (overwrite l k v).length = l.length := by
  induction l with
  | nil => rfl
  | cons e t ih =>
    by_cases h : e.1 = k <;> simp [overwrite, h, ih]

theorem keys_removeKey {β : Type} (l : List (Nat × β)) (k : Nat) :
    keys (removeKey l k) = (keys l).erase k := by
  induction l with
  | nil => rfl
  | cons e t ih =>
    by_cases h : e.1 = k
    · simp [removeKey, keys, h, List.erase_cons_head]
    · simp only [removeKey, keys, h, if_neg, List.map_cons]
      rw [List.erase_cons_tail]
      · exact congrArg (e.1 :: ·) ih
      · simp [h]

theorem length_removeKey_of_mem {β : Type} (l : List (Nat × β)) (k : Nat)
    (h : k ∈ keys l) : (removeKey l k).length = l.length - 1 := by
  induction l with
  | nil => simp [keys] at h
  | cons e t ih =>
    by_cases he : e.1 = k
    · simp [removeKey, he]
    · have ht : k ∈ keys t := by
        simp [keys] at h ⊢
        rcases h with h | h
        · exact absurd h.symm he
        · exact h
      have hne : t ≠ [] := by
        intro hnil
        rw [hnil] at ht
        simp [keys] at ht
      have : 1 ≤ t.length := by
        cases t with
        | nil => exact absurd rfl hne
        | cons a b => simp
      simp [removeKey, he, ih ht]
      omega

theorem removeKey_sublist {β : Type} (l : List (Nat × β)) (k : Nat) :
    (removeKey l k).Sublist l := by
  induction l with
  | nil => simp [removeKey]
  | cons e t ih =>
    by_cases h : e.1 = k
    · simp only [removeKey, h, if_pos]
      exact (List.sublist_cons_self e t)
    · simp only [removeKey, h, if_neg]
      exact List.Sublist.cons₂ e ih

theorem lookup_append_of_none {β : Type} (l l2 : List (Nat × β)) (k : Nat)
    (h : lookup l k = none) : lookup (l ++ l2) k = lookup l2 k := by
  induction l with
  | nil => simp
  | cons e t ih =>
    by_cases he : e.1 = k
    · simp [lookup, he] at h
    · simp [lookup, he] at h ⊢
      exact ih h

/-! ## `FastImageCache` (src lines 963–981)

```python
class FastImageCache:
    def __init__(self, max_size=200):
        self.cache = OrderedDict()
        self.max_size = max_size

    def get(self, key):
        with self.lock:
            if key in self.cache:
                self.cache.move_to_end(key)
                return self.cache[key]
        return None

    def put(self, key, value):
        with self.lock:
            self.cache[key] = value
            if len(self.cache) > self.max_size:
                self.cache.popitem(last=False)
```

Keys and payloads are abstracted to `Nat`; the `OrderedDict` is the list
`cache`, front = oldest. The lock only serialises operations and has no
sequential content. -/

structure FastImageCache where
  cache : List (Nat × Nat)
  max_size : Nat
  deriving DecidableEq, Repr

def FastImageCache.get (c : FastImageCache) (key : Nat) :
    Option Nat × FastImageCache :=
  match lookup c.cache key with
  | some v => (some v, { c with cache := removeKey c.cache key ++ [(key, v)] })
  | none => (none, c)

def FastImageCache.put (c : FastImageCache) (key value : Nat) : FastImageCache :=
  let cache1 :=
    if (lookup c.cache key).isSome then overwrite c.cache key value
    else c.cache ++ [(key, value)]
  let cache2 := if cache1.length > c.max_size then cache1.tail else cache1
  { c with cache := cache2 }

/-- A get/put client operation on the cache. -/
inductive CacheOp where
  | get : Nat → CacheOp
  | put : Nat → Nat → CacheOp
  deriving DecidableEq, Repr

def applyOp (c : FastImageCache) : CacheOp → FastImageCache
  | .get k => (c.get k).2
  | .put k v => c.put k v

def emptyCache (M : Nat) : FastImageCache :=
  { cache := [], max_size := M }

def runOps (M : Nat) (ops : List CacheOp) : FastImageCache :=
  ops.foldl applyOp (emptyCache M)

/-- Run a list of `put`s of (key, value) pairs, in order. -/
def putList (l : List (Nat × Nat)) (c : FastImageCache) : FastImageCache :=
  l.foldl (fun c e => c.put e.1 e.2) c

/-! ### Ghost instrumentation: access stamps

`TimedCache` runs the same `OrderedDict` discipline as `FastImageCache` but
stores, for each resident key, the logical time of its last access, where an
access is a `get` hit or an inserting `put` — exactly the events on which the
code touches the key's `OrderedDict` position.  A `put` that overwrites an
existing key leaves both the position and the stamp alone, matching
`self.cache[key] = value` on a present key. -/

structure TimedCache where
  entries : List (Nat × Nat)
  clock : Nat
  deriving DecidableEq, Repr

def applyOpT (M : Nat) (s : TimedCache) : CacheOp → TimedCache
  | .get k =>
    match lookup s.entries k with
    | some _ => ⟨removeKey s.entries k ++ [(k, s.clock)], s.clock + 1⟩
    | none => ⟨s.entries, s.clock + 1⟩
  | .put k _ =>
    let e1 :=
      if (lookup s.entries k).isSome then s.entries
      else s.entries ++ [(k, s.clock)]
    let e2 := if e1.length > M then e1.tail else e1
    ⟨e2, s.clock + 1⟩

def runOpsT (M : Nat) (ops : List CacheOp) : TimedCache :=
  ops.foldl (applyOpT M) ⟨[], 0⟩

/-- The well-formedness invariant of the instrumented cache: stamps strictly
increase from front (oldest access) to back, and are all in the past. -/
def TimedInv (s : TimedCache) : Prop :=
  (s.entries.map Prod.snd).Pairwise (· < ·) ∧ ∀ e ∈ s.entries, e.2 < s.clock

theorem timedInv_applyOpT (M : Nat) (s : TimedCache) (op : CacheOp)
    (h : TimedInv s) : TimedInv (applyOpT M s op) := by
  obtain ⟨hp, hb⟩ := h
  cases op with
  | get k =>
    simp only [applyOpT]
    cases hl : lookup s.entries k with
    | none =>
      refine ⟨hp, fun e he => ?_⟩
      exact Nat.lt_succ_of_lt (hb e he)
    | some v =>
      constructor
      · rw [List.map_append, List.pairwise_append]
        refine ⟨((hp.sublist ((removeKey_sublist s.entries k).map Prod.snd))), ?_, ?_⟩
        · simp
        · intro a ha b hb'
          simp only [List.map_cons, List.map_nil, List.mem_singleton] at hb'
          subst hb'
          rcases List.mem_map.1 ha with ⟨e, he, rfl⟩
          exact hb e ((removeKey_sublist s.entries k).mem he)
      · intro e he
        rcases List.mem_append.1 he with he | he
        · exact Nat.lt_succ_of_lt (hb e ((removeKey_sublist s.entries k).mem he))
        · simp only [List.mem_singleton] at he
          subst he
          exact Nat.lt_succ_self _
  | put k v =>
    simp only [applyOpT]
    by_cases hl : (lookup s.entries k).isSome
    · simp only [hl, if_pos]
      by_cases hlen : s.entries.length > M
      · simp only [hlen, if_pos]
        refine ⟨hp.sublist ((List.tail_sublist _).map Prod.snd), fun e he => ?_⟩
        exact Nat.lt_succ_of_lt (hb e ((List.tail_sublist _).mem he))
      · simp only [hlen, if_neg]
        exact ⟨hp, fun e he => Nat.lt_succ_of_lt (hb e he)⟩
    · simp only [hl, Bool.false_eq_true, if_false]
      have happ : ((s.entries ++ [(k, s.clock)]).map Prod.snd).Pairwise (· < ·) := by
        rw [List.map_append, List.pairwise_append]
        refine ⟨hp, by simp, ?_⟩
        intro a ha b hb'
        simp only [List.map_cons, List.map_nil, List.mem_singleton] at hb'
        subst hb'
        rcases List.mem_map.1 ha with ⟨e, he, rfl⟩
        exact hb e he
      have hball : ∀ e ∈ s.entries ++ [(k, s.clock)], e.2 < s.clock + 1 := by
        intro e he
        rcases List.mem_append.1 he with he | he
        · exact Nat.lt_succ_of_lt (hb e he)
        · simp only [List.mem_singleton] at he
          subst he
          exact Nat.lt_succ_self _
      by_cases hlen : (s.entries ++ [(k, s.clock)]).length > M
      · rw [if_pos hlen]
        refine ⟨happ.sublist ((List.tail_sublist _).map Prod.snd), fun e he => ?_⟩
        exact hball e ((List.tail_sublist _).mem he)
      · rw [if_neg hlen]
        exact ⟨happ, hball⟩

theorem timedInv_runOpsT (M : Nat) (ops : List CacheOp) :
    TimedInv (runOpsT M ops) := by
  rw [runOpsT]
  generalize hs : (⟨[], 0⟩ : TimedCache) = s0
  have h0 : TimedInv s0 := by
    subst hs
    exact ⟨List.Pairwise.nil, fun e he => absurd he (List.not_mem_nil e)⟩
  clear hs
  induction ops generalizing s0 with
  | nil => exact h0
  | cons op rest ih =>
    exact ih _ (timedInv_applyOpT M s0 op h0)

theorem keys_tail {β : Type} (l : List (Nat × β)) : keys l.tail = (keys l).tail := by
  cases l <;> rfl

theorem lookup_isSome_congr {β γ : Type} (l : List (Nat × β)) (l' : List (Nat × γ))
    (h : keys l = keys l') (k : Nat) : (lookup l k).isSome = (lookup l' k).isSome := by
  by_cases hk : k ∈ keys l
  · rw [(lookup_isSome_iff l k).2 hk, (lookup_isSome_iff l' k).2 (h ▸ hk)]
  · rw [(lookup_eq_none_iff l k).2 hk, (lookup_eq_none_iff l' k).2 (h ▸ hk)]
    rfl

theorem length_keys {β : Type} (l : List (Nat × β)) : (keys l).length = l.length :=
  List.length_map l Prod.fst

/-- One step of the real cache and one step of the instrumented cache keep the
key sequences (hence positions, membership and eviction choices) identical. -/
theorem keys_applyOp_eq (M : Nat) (c : FastImageCache) (s : TimedCache)
    (hmax : c.max_size = M) (h : keys c.cache = keys s.entries) (op : CacheOp) :
    keys (applyOp c op).cache = keys (applyOpT M s op).entries := by
  cases op with
  | get k =>
    simp only [applyOp, FastImageCache.get, applyOpT]
    have hsome := lookup_isSome_congr c.cache s.entries h k
    cases hc : lookup c.cache k with
    | none =>
      have : lookup s.entries k = none := by
        rw [hc] at hsome
        exact Option.not_isSome_iff_eq_none.1 (by rw [← hsome]; simp)
      rw [this]
      exact h
    | some v =>
      have : (lookup s.entries k).isSome := by rw [← hsome, hc]; rfl
      rcases Option.isSome_iff_exists.1 this with ⟨w, hw⟩
      rw [hw]
      have h1 := keys_removeKey c.cache k
      have h2 := keys_removeKey s.entries k
      simp only [keys, List.map_append, List.map_cons, List.map_nil] at h1 h2 h ⊢
      rw [h1, h2, h]
  | put k v =>
    simp only [applyOp, FastImageCache.put, applyOpT, hmax]
    have hsome := lookup_isSome_congr c.cache s.entries h k
    by_cases hl : (lookup c.cache k).isSome
    · have hl' : (lookup s.entries k).isSome := by rw [← hsome]; exact hl
      rw [if_pos hl, if_pos hl']
      have hk : keys (overwrite c.cache k v) = keys s.entries := by
        rw [keys_overwrite]
        exact h
      have hlen : (overwrite c.cache k v).length = s.entries.length := by
        rw [← length_keys, ← length_keys s.entries, hk]
      by_cases hgt : s.entries.length > M
      · have hgt' : (overwrite c.cache k v).length > M := by rw [hlen]; exact hgt
        rw [if_pos hgt', if_pos hgt, keys_tail, keys_tail, hk]
      · have hgt' : ¬(overwrite c.cache k v).length > M := by rw [hlen]; exact hgt
        rw [if_neg hgt', if_neg hgt]
        exact hk
    · have hl' : ¬(lookup s.entries k).isSome := by rw [← hsome]; exact hl
      rw [if_neg hl, if_neg hl']
      have hk : keys (c.cache ++ [(k, v)]) = keys (s.entries ++ [(k, s.clock)]) := by
        simp only [keys, List.map_append, List.map_cons, List.map_nil] at h ⊢
        rw [h]
      have hlen : (c.cache ++ [(k, v)]).length = (s.entries ++ [(k, s.clock)]).length := by
        rw [← length_keys, ← length_keys (s.entries ++ [(k, s.clock)]), hk]
      by_cases hgt : (s.entries ++ [(k, s.clock)]).length > M
      · have hgt' : (c.cache ++ [(k, v)]).length > M := by rw [hlen]; exact hgt
        rw [if_pos hgt', if_pos hgt, keys_tail, keys_tail, hk]
      · have hgt' : ¬(c.cache ++ [(k, v)]).length > M := by rw [hlen]; exact hgt
        rw [if_neg hgt', if_neg hgt]
        exact hk

theorem max_size_applyOp (c : FastImageCache) (op : CacheOp) :
    (applyOp c op).max_size = c.max_size := by
  cases op with
  | get k =>
    simp only [applyOp, FastImageCache.get]
    cases lookup c.cache k <;> rfl
  | put k v => rfl

theorem keys_runOps_eq_runOpsT (M : Nat) (ops : List CacheOp) :
    keys (runOps M ops).cache = keys (runOpsT M ops).entries ∧
      (runOps M ops).max_size = M := by
  rw [runOps, runOpsT]
  generalize hc : emptyCache M = c0
  generalize hs : (⟨[], 0⟩ : TimedCache) = s0
  have h0 : keys c0.cache = keys s0.entries ∧ c0.max_size = M := by
    subst hc hs
    exact ⟨rfl, rfl⟩
  clear hc hs
  induction ops generalizing c0 s0 with
  | nil => exact h0
  | cons op rest ih =>
    refine ih _ _ ⟨keys_applyOp_eq M c0 s0 h0.2 h0.1 op, ?_⟩
    rw [max_size_applyOp, h0.2]

/-! ### Size bound -/

theorem length_get_cache (c : FastImageCache) (k : Nat) :
    ((c.get k).2).cache.length = c.cache.length := by
  simp only [FastImageCache.get]
  cases hl : lookup c.cache k with
  | none => rfl
  | some v =>
    have hk : k ∈ keys c.cache :=
      (lookup_isSome_iff c.cache k).1 (by rw [hl]; rfl)
    have h1 : 1 ≤ c.cache.length := by
      cases hc : c.cache with
      | nil => rw [hc] at hk; simp [keys] at hk
      | cons a t => simp
    simp only [List.length_append, List.length_singleton,
      length_removeKey_of_mem c.cache k hk]
    omega

theorem length_put_cache_le (c : FastImageCache) (k v : Nat)
    (h : c.cache.length ≤ c.max_size) : ((c.put k v).cache).length ≤ c.max_size := by
  simp only [FastImageCache.put]
  by_cases hl : (lookup c.cache k).isSome
  · rw [if_pos hl]
    by_cases hgt : (overwrite c.cache k v).length > c.max_size
    · rw [if_pos hgt]
      rw [length_overwrite] at hgt
      omega
    · rw [if_neg hgt]
      omega
  · rw [if_neg hl]
    by_cases hgt : (c.cache ++ [(k, v)]).length > c.max_size
    · rw [if_pos hgt]
      have : (c.cache ++ [(k, v)]).length = c.cache.length + 1 := by simp
      have ht : ((c.cache ++ [(k, v)]).tail).length = c.cache.length + 1 - 1 := by
        rw [List.length_tail, this]
      omega
    · rw [if_neg hgt]
      omega

theorem cache_length_le (M : Nat) (ops : List CacheOp) :
    (runOps M ops).cache.length ≤ M := by
  have hmax := (keys_runOps_eq_runOpsT M ops).2
  rw [runOps] at hmax ⊢
  generalize hc : emptyCache M = c0 at *
  have h0 : c0.cache.length ≤ c0.max_size := by
    subst hc
    simp [emptyCache]
  clear hc
  induction ops generalizing c0 with
  | nil => rw [← hmax]; exact h0
  | cons op rest ih =>
    refine ih _ hmax ?_
    have hms := max_size_applyOp c0 op
    cases op with
    | get k =>
      have := length_get_cache c0 k
      simp only [applyOp] at *
      rw [this, hms]
      exact h0
    | put k v =>
      simp only [applyOp] at *
      rw [hms]
      exact length_put_cache_le c0 k v h0

/-! ### Distinctness of resident keys (OrderedDict keys are unique) -/

theorem keysNodup_applyOp (c : FastImageCache) (op : CacheOp)
    (h : (keys c.cache).Nodup) : (keys (applyOp c op).cache).Nodup := by
  cases op with
  | get k =>
    simp only [applyOp, FastImageCache.get]
    cases hl : lookup c.cache k with
    | none => exact h
    | some v =>
      simp only [keys, List.map_append, List.map_cons, List.map_nil]
      have h1 := keys_removeKey c.cache k
      simp only [keys] at h1
      rw [h1]
      refine List.Nodup.append (h.sublist (List.erase_sublist k _)) (by simp) ?_
      intro a ha hb
      simp only [List.mem_singleton] at hb
      subst hb
      exact absurd rfl (h.mem_erase_iff.1 ha).1
  | put k v =>
    simp only [applyOp, FastImageCache.put]
    by_cases hl : (lookup c.cache k).isSome
    · rw [if_pos hl]
      have hk : keys (overwrite c.cache k v) = keys c.cache := keys_overwrite _ _ _
      by_cases hgt : (overwrite c.cache k v).length > c.max_size
      · rw [if_pos hgt, keys_tail, hk]
        exact h.sublist (List.tail_sublist _)
      · rw [if_neg hgt, hk]
        exact h
    · rw [if_neg hl]
      have hmem : k ∉ keys c.cache := by
        intro hk
        exact hl ((lookup_isSome_iff c.cache k).2 hk)
      have hnd : (keys (c.cache ++ [(k, v)])).Nodup := by
        simp only [keys, List.map_append, List.map_cons, List.map_nil]
        refine List.Nodup.append h (by simp) ?_
        intro a ha hb
        simp only [List.mem_singleton] at hb
        subst hb
        exact hmem ha
      by_cases hgt : (c.cache ++ [(k, v)]).length > c.max_size
      · rw [if_pos hgt, keys_tail]
        exact hnd.sublist (List.tail_sublist _)
      · rw [if_neg hgt]
        exact hnd

theorem keysNodup_runOps (M : Nat) (ops : List CacheOp) :
    (keys (runOps M ops).cache).Nodup := by
  rw [runOps]
  generalize hc : emptyCache M = c0
  have h0 : (keys c0.cache).Nodup := by
    subst hc
    exact List.Pairwise.nil
  clear hc
  induction ops generalizing c0 with
  | nil => exact h0
  | cons op rest ih => exact ih _ (keysNodup_applyOp c0 op h0)

/-! ### Eviction on a full cache -/

/-- A `put` of an absent key into a full cache appends the new entry at the
back and pops the front entry — the entry at the oldest position. -/
theorem put_full_fresh_evicts_front (c : FastImageCache) (k v : Nat)
    (hM : 1 ≤ c.max_size) (hfull : c.cache.length = c.max_size)
    (hfresh : lookup c.cache k = none) :
    (c.put k v).cache = c.cache.tail ++ [(k, v)] := by
  have h1 : (lookup c.cache k).isSome = false := by rw [hfresh]; rfl
  simp only [FastImageCache.put, h1, Bool.false_eq_true, if_false]
  have hgt : (c.cache ++ [(k, v)]).length > c.max_size := by
    simp [hfull]
  rw [if_pos hgt]
  have hne : c.cache ≠ [] := by
    intro h0
    rw [h0] at hfull
    simp at hfull
    omega
  cases hc : c.cache with
  | nil => exact absurd hc hne
  | cons a t => simp

/-! ### Filling an empty cache with distinct fresh keys -/

theorem putList_fresh_append (l : List (Nat × Nat)) (c : FastImageCache)
    (hnd : (keys c.cache ++ keys l).Nodup)
    (hlen : c.cache.length + l.length ≤ c.max_size) :
    (putList l c).cache = c.cache ++ l ∧ (putList l c).max_size = c.max_size := by
  induction l generalizing c with
  | nil =>
    simp [putList]
  | cons e t ih =>
    have hmem : e.1 ∉ keys c.cache := by
      intro hk
      have : e.1 ∈ keys (e :: t) := by simp [keys]
      exact (List.disjoint_of_nodup_append hnd) hk this
    have hfresh : lookup c.cache e.1 = none := (lookup_eq_none_iff _ _).2 hmem
    have hlen' : c.cache.length + (t.length + 1) ≤ c.max_size := by
      simpa using hlen
    have hput : (c.put e.1 e.2).cache = c.cache ++ [e] := by
      have h1 : (lookup c.cache e.1).isSome = false := by rw [hfresh]; rfl
      simp only [FastImageCache.put, h1, Bool.false_eq_true, if_false]
      have hle : ¬(c.cache ++ [(e.1, e.2)]).length > c.max_size := by
        simp only [List.length_append, List.length_singleton]
        omega
      rw [if_neg hle]
    have hmax : (c.put e.1 e.2).max_size = c.max_size := rfl
    have hstep : putList (e :: t) c = putList t (c.put e.1 e.2) := rfl
    rw [hstep]
    have harg : (keys (c.put e.1 e.2).cache ++ keys t).Nodup := by
      rw [hput]
      simp only [keys, List.map_append, List.map_cons, List.map_nil] at hnd ⊢
      rw [List.append_assoc]
      simpa using hnd
    have harg2 : (c.put e.1 e.2).cache.length + t.length ≤ (c.put e.1 e.2).max_size := by
      rw [hput, hmax]
      simp only [List.length_append, List.length_singleton]
      omega
    obtain ⟨h1, h2⟩ := ih (c.put e.1 e.2) harg harg2
    refine ⟨?_, by rw [h2, hmax]⟩
    rw [h1, hput, List.append_assoc]
    rfl

/-- Inserting `M + 1` distinct keys into an empty cache of maximum size `M`
leaves exactly the first-inserted key evicted: the cache holds the tail of the
insertion sequence, in insertion order. -/
theorem putList_overflow (M : Nat) (l : List (Nat × Nat))
    (hnd : (keys l).Nodup) (hlen : l.length = M + 1) :
    (putList l (emptyCache M)).cache = l.tail := by
  rcases l.eq_nil_or_concat with rfl | ⟨init, e, rfl⟩
  · simp at hlen
  · rw [List.concat_eq_append] at hnd hlen ⊢
    have hinit : init.length = M := by
      simp only [List.length_append, List.length_singleton] at hlen
      omega
    have hndinit : (keys (emptyCache M).cache ++ keys init).Nodup := by
      simp only [emptyCache, keys, List.map_nil, List.nil_append]
      have : keys (init ++ [e]) = keys init ++ [e.1] := by
        simp [keys]
      rw [this] at hnd
      exact hnd.sublist (List.sublist_append_left _ _)
    have hleninit : (emptyCache M).cache.length + init.length ≤ (emptyCache M).max_size := by
      simp [emptyCache, hinit]
    obtain ⟨h1, h2⟩ := putList_fresh_append init (emptyCache M) hndinit hleninit
    have hsplit : putList (init ++ [e]) (emptyCache M)
        = (putList init (emptyCache M)).put e.1 e.2 := by
      simp [putList, List.foldl_append]
    rw [hsplit]
    have hemem : e.1 ∉ keys (putList init (emptyCache M)).cache := by
      rw [h1]
      simp only [emptyCache, List.nil_append]
      have : keys (init ++ [e]) = keys init ++ [e.1] := by simp [keys]
      rw [this] at hnd
      intro hk
      exact (List.disjoint_of_nodup_append hnd) hk (by simp)
    have hfresh : lookup (putList init (emptyCache M)).cache e.1 = none :=
      (lookup_eq_none_iff _ _).2 hemem
    have hb : (lookup (putList init (emptyCache M)).cache e.1).isSome = false := by
      rw [hfresh]; rfl
    simp only [FastImageCache.put, hb, Bool.false_eq_true, if_false]
    have hgt : ((putList init (emptyCache M)).cache ++ [(e.1, e.2)]).length
        > (putList init (emptyCache M)).max_size := by
      rw [h1, h2]
      simp [emptyCache, hinit]
    rw [if_pos hgt, h1]
    simp only [emptyCache, List.nil_append]

/-! ### Survival of a resident key under later `put`s

A resident key preceded by at least as many older entries as there are
remaining `put`s (of keys other than it) can never reach the front in time to
be evicted. -/

theorem putList_keeps_key (l : List (Nat × Nat)) (c : FastImageCache) (k : Nat)
    (hne : ∀ e ∈ l, e.1 ≠ k)
    (hmem : k ∈ keys c.cache)
    (hinv : c.cache.length ≤ c.max_size)
    (hidx : l.length ≤ (keys c.cache).indexOf k) :
    k ∈ keys (putList l c).cache := by
  induction l generalizing c with
  | nil => exact hmem
  | cons e t ih =>
    have hek : e.1 ≠ k := hne e (List.mem_cons_self e t)
    have hstep : putList (e :: t) c = putList t (c.put e.1 e.2) := rfl
    rw [hstep]
    have hmax : (c.put e.1 e.2).max_size = c.max_size := rfl
    have hT : ∀ e' ∈ t, e'.1 ≠ k := fun e' he' => hne e' (List.mem_cons_of_mem e he')
    by_cases hl : (lookup c.cache e.1).isSome
    · -- overwrite in place: keys, order and length unchanged
      have hcache : (c.put e.1 e.2).cache = overwrite c.cache e.1 e.2 := by
        simp only [FastImageCache.put, hl, if_true]
        rw [if_neg (by rw [length_overwrite]; omega)]
      have hkeys : keys (c.put e.1 e.2).cache = keys c.cache := by
        rw [hcache, keys_overwrite]
      refine ih (c.put e.1 e.2) hT (by rw [hkeys]; exact hmem) ?_ ?_
      · rw [hcache, hmax, length_overwrite]
        exact hinv
      · rw [hkeys]
        have := hidx
        simp only [List.length_cons] at this
        omega
    · -- fresh key: appended at the back; the front may be evicted
      have hb : (lookup c.cache e.1).isSome = false := by
        cases hx : (lookup c.cache e.1).isSome
        · rfl
        · exact absurd hx hl
      by_cases hgt : (c.cache ++ [(e.1, e.2)]).length > c.max_size
      · -- eviction: the front entry is popped, and it is not k
        have hcache : (c.put e.1 e.2).cache = (c.cache ++ [(e.1, e.2)]).tail := by
          simp only [FastImageCache.put, hb, Bool.false_eq_true, if_false]
          rw [if_pos hgt]
        cases hc : c.cache with
        | nil =>
          rw [hc] at hmem
          simp [keys] at hmem
        | cons a rest =>
          have hidx1 : 1 ≤ (keys c.cache).indexOf k := by
            have := hidx
            simp only [List.length_cons] at this
            omega
          have hak : a.1 ≠ k := by
            intro hak
            rw [hc] at hidx1
            simp only [keys, List.map_cons] at hidx1
            rw [hak, List.indexOf_cons_self] at hidx1
            omega
          have hkrest : k ∈ keys rest := by
            rw [hc] at hmem
            simp only [keys, List.map_cons, List.mem_cons] at hmem
            rcases hmem with hmem | hmem
            · exact absurd hmem.symm hak
            · exact hmem
          have hidxrest : t.length ≤ (keys rest).indexOf k := by
            have := hidx
            rw [hc] at this
            simp only [keys, List.map_cons, List.length_cons] at this
            rw [List.indexOf_cons_ne _ (by simpa using hak)] at this
            simp only [keys]
            omega
          have hcache2 : (c.put e.1 e.2).cache = rest ++ [(e.1, e.2)] := by
            rw [hcache, hc]
            simp
          refine ih (c.put e.1 e.2) hT ?_ ?_ ?_
          · rw [hcache2]
            simp only [keys, List.map_append, List.map_cons, List.map_nil]
            exact List.mem_append_left _ hkrest
          · rw [hcache2, hmax]
            have h1 : (rest ++ [(e.1, e.2)]).length = rest.length + 1 := by simp
            have h2 : c.cache.length = rest.length + 1 := by rw [hc]; simp
            omega
          · rw [hcache2]
            have : keys (rest ++ [(e.1, e.2)]) = keys rest ++ [e.1] := by
              simp [keys]
            rw [this, List.indexOf_append_of_mem hkrest]
            exact hidxrest
      · -- no eviction: appended at the back, front order unchanged
        have hcache : (c.put e.1 e.2).cache = c.cache ++ [(e.1, e.2)] := by
          simp only [FastImageCache.put, hb, Bool.false_eq_true, if_false]
          rw [if_neg hgt]
        refine ih (c.put e.1 e.2) hT ?_ ?_ ?_
        · rw [hcache]
          simp only [keys, List.map_append]
          exact List.mem_append_left _ hmem
        · rw [hcache, hmax]
          simp only [List.length_append, List.length_singleton] at hgt ⊢
          omega
        · rw [hcache]
          have : keys (c.cache ++ [(e.1, e.2)]) = keys c.cache ++ [e.1] := by
            simp [keys]
          rw [this, List.indexOf_append_of_mem hmem]
          have := hidx
          simp only [List.length_cons] at this
          omega

/-- Modelled from the spec: the claim's reading of recency, under which every
access — a `get` hit or any `put`, overwrites included — refreshes the key's
last-access time. Entry positions follow the code; only the stamp on the
overwrite branch differs from `applyOpT` (which models the code's actual
`OrderedDict` behaviour, where assignment to a present key does not touch its
position). -/
def applyOpS (M : Nat) (s : TimedCache) : CacheOp → TimedCache
  | .get k =>
    match lookup s.entries k with
    | some _ => ⟨removeKey s.entries k ++ [(k, s.clock)], s.clock + 1⟩
    | none => ⟨s.entries, s.clock + 1⟩
  | .put k _ =>
    let e1 :=
      if (lookup s.entries k).isSome then overwrite s.entries k s.clock
      else s.entries ++ [(k, s.clock)]
    let e2 := if e1.length > M then e1.tail else e1
    ⟨e2, s.clock + 1⟩

def runOpsS (M : Nat) (ops : List CacheOp) : TimedCache :=
  ops.foldl (applyOpS M) ⟨[], 0⟩

/-- C1, counterexample. On a cache of maximum size 2, run
`put 0`, `put 1`, `put 0` (an overwrite), `put 2`. Before the final `put` the
cache is full, key 0 was accessed at time 2 and key 1 only at time 1
(`runOpsS` records last-access times in the claim's sense, where a `put` of a
present key counts as an access). The final `put` pushes the size past 2 and
evicts key 0 — not key 1, the least-recently-accessed entry. The claim that
eviction always removes the least-recently-accessed entry is therefore false
of the code: assignment to a present `OrderedDict` key does not refresh its
position. -/
theorem put_eviction_not_lru_cex :
    (runOps 2 [CacheOp.put 0 10, CacheOp.put 1 11, CacheOp.put 0 12]).cache
        = [(0, 12), (1, 11)]
    ∧ (runOpsS 2 [CacheOp.put 0 10, CacheOp.put 1 11, CacheOp.put 0 12]).entries
        = [(0, 2), (1, 1)]
    ∧ (runOps 2 [CacheOp.put 0 10, CacheOp.put 1 11, CacheOp.put 0 12,
        CacheOp.put 2 13]).cache = [(1, 11), (2, 13)] := by
  decide

/-- C1, amended. For every maximum size `M` and every sequence of get/put
operations from the empty cache: (1) the number of stored entries never
exceeds `M`; (2, 3) the cache holds its keys ordered by last access, oldest
first, where an access is a `get` hit or an *inserting* `put` — a `put` that
overwrites a present key does not refresh its recency; (4) the front entry is
the least-recently-accessed in that sense; (5) a `put` that pushes the size
past `M` removes exactly that front entry; (6) in particular, inserting `M+1`
distinct keys leaves exactly the first-inserted key evicted and all `M`
others present. -/
theorem fastImageCache_lru_amended (M : Nat) (ops : List CacheOp) :
    (runOps M ops).cache.length ≤ M
    ∧ keys (runOps M ops).cache = keys (runOpsT M ops).entries
    ∧ ((runOpsT M ops).entries.map Prod.snd).Pairwise (· < ·)
    ∧ (∀ f ∈ (runOpsT M ops).entries.head?, ∀ e ∈ (runOpsT M ops).entries,
        f.2 ≤ e.2)
    ∧ (∀ k v, 1 ≤ M → (runOps M ops).cache.length = M →
        lookup (runOps M ops).cache k = none →
        ((runOps M ops).put k v).cache = (runOps M ops).cache.tail ++ [(k, v)])
    ∧ (∀ l : List (Nat × Nat), (keys l).Nodup → l.length = M + 1 →
        (putList l (emptyCache M)).cache = l.tail) := by
  refine ⟨cache_length_le M ops, (keys_runOps_eq_runOpsT M ops).1,
    (timedInv_runOpsT M ops).1, ?_, ?_, ?_⟩
  · intro f hf e he
    have hp := (timedInv_runOpsT M ops).1
    cases hentries : (runOpsT M ops).entries with
    | nil =>
      rw [hentries] at hf
      simp at hf
    | cons a t =>
      rw [hentries] at hf he
      simp only [List.head?_cons, Option.mem_def, Option.some.injEq] at hf
      subst hf
      rw [hentries, List.map_cons, List.pairwise_cons] at hp
      rcases List.mem_cons.1 he with rfl | he
      · exact le_refl _
      · exact le_of_lt (hp.1 e.2 (List.mem_map_of_mem Prod.snd he))
  · intro k v hM hfull hfresh
    have hmax := (keys_runOps_eq_runOpsT M ops).2
    exact put_full_fresh_evicts_front (runOps M ops) k v (by rw [hmax]; exact hM)
      (by rw [hmax]; exact hfull) hfresh
  · exact putList_overflow M

/-- Witness for `fastImageCache_lru_amended` at concrete inputs: maximum size
2, with the eviction clause exercised on the run `put 0; put 1` and the
`M + 1`-distinct-keys clause on keys 5, 6, 7. -/
theorem fastImageCache_lru_amended_witness :
    (runOps 2 [CacheOp.put 0 10, CacheOp.get 0]).cache.length ≤ 2
    ∧ ((runOps 2 [CacheOp.put 0 10, CacheOp.put 1 11]).put 2 12).cache
        = (runOps 2 [CacheOp.put 0 10, CacheOp.put 1 11]).cache.tail ++ [(2, 12)]
    ∧ (putList [(5, 0), (6, 0), (7, 0)] (emptyCache 2)).cache = [(6, 0), (7, 0)] := by
  refine ⟨(fastImageCache_lru_amended 2 [CacheOp.put 0 10, CacheOp.get 0]).1, ?_, ?_⟩
  · exact (fastImageCache_lru_amended 2
      [CacheOp.put 0 10, CacheOp.put 1 11]).2.2.2.2.1 2 12
      (by decide) (by decide) (by decide)
  · exact (fastImageCache_lru_amended 2 []).2.2.2.2.2 [(5, 0), (6, 0), (7, 0)]
      (by decide) (by decide)

/-- C2, counterexample. Max size `M = 1`: the cache `{0 ↦ 0}` is full; a
`get 0` hits (and promotes); putting `M = 1` further distinct key (key 1,
different from the hit key) then evicts key 0, so the previously-hit key is
*not* still present. A hit key survives only `M - 1` subsequent distinct
insertions, not `M`. -/
theorem cache_promotion_claim_cex :
    (runOps 1 [CacheOp.put 0 0]).cache.length = (runOps 1 [CacheOp.put 0 0]).max_size
    ∧ ((runOps 1 [CacheOp.put 0 0]).get 0).1 = some 0
    ∧ lookup (runOps 1 [CacheOp.put 0 0, CacheOp.get 0, CacheOp.put 1 1]).cache 0
        = none := by
  decide

/-- C2, amended. For a full `FastImageCache` of maximum size `M`, a `get` hit
on a resident key followed by `M - 1` `put`s of distinct keys all different
from the hit key leaves the hit key still present: the hit moved it to the
most-recently-used position, so the at most `M - 1` evictions pop only the
`M - 1` entries that were older. -/
theorem cache_promotion_keeps_key (c : FastImageCache) (k vk : Nat)
    (news : List (Nat × Nat))
    (hnd : (keys c.cache).Nodup)
    (hfull : c.cache.length = c.max_size)
    (hres : lookup c.cache k = some vk)
    (hlen : news.length = c.max_size - 1)
    (hne : ∀ e ∈ news, e.1 ≠ k)
    (hnews : (keys news).Nodup) :
    (lookup (putList news (c.get k).2).cache k).isSome = true := by
  have hkmem : k ∈ keys c.cache :=
    (lookup_isSome_iff c.cache k).1 (by rw [hres]; rfl)
  have hget : (c.get k).2.cache = removeKey c.cache k ++ [(k, vk)] := by
    simp only [FastImageCache.get, hres]
  have hgetmax : (c.get k).2.max_size = c.max_size := by
    simp only [FastImageCache.get, hres]
  have hkeys : keys (c.get k).2.cache = (keys c.cache).erase k ++ [k] := by
    rw [hget]
    have h1 := keys_removeKey c.cache k
    simp only [keys, List.map_append, List.map_cons, List.map_nil] at h1 ⊢
    rw [h1]
  have hkerase : k ∉ (keys c.cache).erase k := by
    intro hk
    exact absurd rfl (hnd.mem_erase_iff.1 hk).1
  have hidx : (keys (c.get k).2.cache).indexOf k = c.cache.length - 1 := by
    rw [hkeys, List.indexOf_append_of_not_mem hkerase, List.indexOf_cons_self]
    have := List.length_erase_add_one hkmem
    have hlk := length_keys c.cache
    omega
  have hmem' : k ∈ keys (c.get k).2.cache := by
    rw [hkeys]
    exact List.mem_append_right _ (by simp)
  have hlen' : (c.get k).2.cache.length ≤ (c.get k).2.max_size := by
    rw [length_get_cache, hgetmax]
    omega
  have h1le : 1 ≤ c.cache.length := by
    cases hc : c.cache with
    | nil =>
      rw [hc] at hkmem
      simp [keys] at hkmem
    | cons a t => simp
  have hfinal := putList_keeps_key news ((c.get k).2) k hne hmem' hlen'
    (by rw [hidx]; omega)
  exact (lookup_isSome_iff _ _).2 hfinal

/-- Witness for `cache_promotion_keeps_key`: a full cache of maximum size 2
holding keys 0 and 1; a hit on key 0 followed by one distinct insertion
leaves key 0 present. -/
theorem cache_promotion_keeps_key_witness :
    (lookup (putList [(2, 12)]
      ((⟨[(0, 10), (1, 11)], 2⟩ : FastImageCache).get 0).2).cache 0).isSome = true := by
  exact cache_promotion_keeps_key ⟨[(0, 10), (1, 11)], 2⟩ 0 10 [(2, 12)]
    (by decide) (by decide) (by decide) (by decide) (by decide) (by decide)

/-! ## Masonry layout engine: `calculate_layout` (src lines 2002–2052)

```python
if self.view_mode.get() == "selected":
    count = len(self.filtered_images)
    if count == 2:   cols = 2
    elif count == 3: cols = 3
    else:            cols = self.num_columns if self.num_columns > 0 else 4
else:
    cols = self.num_columns if self.num_columns > 0 else 4
gap = self.gap
if cols == 0: cols = 1
col_w = (canvas_width - (gap * (cols + 1))) // cols
col_w = max(50, col_w)
col_heights = [gap] * cols
for img in self.filtered_images:
    min_col = col_heights.index(min(col_heights))
    aspect = self.get_aspect_ratio_fast(path)
    img_h = int(col_w / aspect)
    x = gap + min_col * (col_w + gap)
    y = col_heights[min_col]
    self.image_positions[path] = (x, y, col_w, img_h)
    col_heights[min_col] = y + img_h + gap
total_h = max(col_heights) + gap if col_heights else 0
```

The catalog paths are a type parameter `α`; `image_positions` is modelled as
the list of bindings produced by the loop, in catalog order (the Python dict
is keyed by the unique catalog paths, so it holds exactly these bindings).
Aspect ratios reach the loop through the memoized resolver; here they are an
explicit function `α → ℚ`. -/

/-- Python `min` of a nonempty list (0 on the empty list, never reached). -/
def minList : List ℤ → ℤ
  | [] => 0
  | a :: t => t.foldl min a

/-- Python `max` of a nonempty list (0 on the empty list, never reached). -/
def maxList : List ℤ → ℤ
  | [] => 0
  | a :: t => t.foldl max a

/-- Python `l.index(min(l))`: the first index holding the minimum. -/
def idxmin : List ℤ → Nat
  | [] => 0
  | [_] => 0
  | a :: b :: t => if a ≤ minList (b :: t) then 0 else idxmin (b :: t) + 1

/-- Column-count determination of `calculate_layout` (src lines 2010–2024),
including the `cols == 0` fallback to a single column. -/
def determine_cols (view_selected : Bool) (count : Nat) (num_columns : ℤ) : ℤ :=
  let cols :=
    if view_selected then
      if count = 2 then 2
      else if count = 3 then 3
      else if num_columns > 0 then num_columns else 4
    else if num_columns > 0 then num_columns else 4
  if cols = 0 then 1 else cols

/-- The placement loop of `calculate_layout`: returns the emitted positions
`(path, x, y, width, height)` in catalog order together with the final column
heights. -/
def place {α : Type} (aspect : α → ℚ) (col_w gap : ℤ) :
    List α → List ℤ → List (α × ℤ × ℤ × ℤ × ℤ) × List ℤ
  | [], heights => ([], heights)
  | p :: rest, heights =>
    let min_col := idxmin heights
    let img_h := pyint ((col_w : ℚ) / aspect p)
    let x := gap + (min_col : ℤ) * (col_w + gap)
    let y := heights.getD min_col 0
    let r := place aspect col_w gap rest (heights.set min_col (y + img_h + gap))
    ((p, x, y, col_w, img_h) :: r.1, r.2)

def calculate_layout {α : Type} (images : List α) (aspect : α → ℚ)
    (canvas_width gap : ℤ) (cols : Nat) :
    List (α × ℤ × ℤ × ℤ × ℤ) × ℤ :=
  let col_w := max 50 ((canvas_width - gap * ((cols : ℤ) + 1)).fdiv (cols : ℤ))
  let r := place aspect col_w gap images (List.replicate cols gap)
  (r.1, if r.2 = [] then 0 else maxList r.2 + gap)

/-- Modelled from the spec (§4.4): column-balanced "shortest column first"
placement. Every column height accumulator starts at the gap; each image in
catalog order goes to the column of minimum current height, at
`(column_x, column_height)`, with height `⌊column_width / aspect⌋`, advancing
that column by `image_height + gap`; column width is
`(viewport_width − gap×(cols+1)) / cols` floored to a minimum of 50; total
content height is the maximum column height plus one gap. -/
def masonry_place_spec {α : Type} (aspect : α → ℚ) (col_w gap : ℤ) :
    List α → List ℤ → List (α × ℤ × ℤ × ℤ × ℤ) × List ℤ
  | [], heights => ([], heights)
  | p :: rest, heights =>
    let min_col := idxmin heights
    let img_h : ℤ := ⌊(col_w : ℚ) / aspect p⌋
    let x := gap + (min_col : ℤ) * (col_w + gap)
    let y := heights.getD min_col 0
    let r := masonry_place_spec aspect col_w gap rest
      (heights.set min_col (y + img_h + gap))
    ((p, x, y, col_w, img_h) :: r.1, r.2)

/-- Modelled from the spec (§4.4): the full layout computation. -/
def masonry_layout_spec {α : Type} (images : List α) (aspect : α → ℚ)
    (canvas_width gap : ℤ) (cols : Nat) :
    List (α × ℤ × ℤ × ℤ × ℤ) × ℤ :=
  let col_w := max 50 ((canvas_width - gap * ((cols : ℤ) + 1)).fdiv (cols : ℤ))
  let r := masonry_place_spec aspect col_w gap images (List.replicate cols gap)
  (r.1, maxList r.2 + gap)

theorem pyint_eq_floor_of_nonneg (q : ℚ) (h : 0 ≤ q) : pyint q = ⌊q⌋ := by
  rw [pyint, if_pos h]

theorem place_eq_spec {α : Type} (aspect : α → ℚ) (col_w gap : ℤ)
    (hw : 0 ≤ col_w) (images : List α) (heights : List ℤ)
    (ha : ∀ p ∈ images, 0 < aspect p) :
    place aspect col_w gap images heights
      = masonry_place_spec aspect col_w gap images heights := by
  induction images generalizing heights with
  | nil => rfl
  | cons p rest ih =>
    have hap : 0 < aspect p := ha p (List.mem_cons_self p rest)
    have hq : (0 : ℚ) ≤ (col_w : ℚ) / aspect p :=
      div_nonneg (by exact_mod_cast hw) (le_of_lt hap)
    simp only [place, masonry_place_spec,
      pyint_eq_floor_of_nonneg _ hq]
    rw [ih _ (fun p' hp' => ha p' (List.mem_cons_of_mem p hp'))]

theorem place_heights_length {α : Type} (aspect : α → ℚ) (col_w gap : ℤ)
    (images : List α) (heights : List ℤ) :
    (place aspect col_w gap images heights).2.length = heights.length := by
  induction images generalizing heights with
  | nil => rfl
  | cons p rest ih =>
    simp only [place]
    rw [ih]
    exact List.length_set _ _ _

/-- C3. For every ordered image list with positive aspect ratios, column count
`cols ≥ 1`, canvas width and gap, `calculate_layout` computes exactly the
spec's masonry layout: column accumulators initialized to the gap, each image
placed in catalog order into the first column of minimum height at
`(column_x, column_height)` with height `⌊column_width / aspect⌋`, the column
advanced by `image_height + gap`, and total content height
`max(column_heights) + gap`. In particular, for 12 images of aspect ratio 1.0,
4 columns, gap 4 and canvas width 820 (column width 200), the images are
placed round-robin so each column receives exactly 3 images, every column
height is `3×col_w + 4×gap = 616`, and the total height is `616 + 4`. -/
theorem calculate_layout_spec_refinement {α : Type} (images : List α)
    (aspect : α → ℚ) (W g : ℤ) (cols : Nat)
    (hcols : 1 ≤ cols) (ha : ∀ p ∈ images, 0 < aspect p) :
    calculate_layout images aspect W g cols
        = masonry_layout_spec images aspect W g cols
    ∧ (calculate_layout (List.range 12) (fun _ => (1 : ℚ)) 820 4 4).1.map
        (fun e => e.2.1)
        = [4, 208, 412, 616, 4, 208, 412, 616, 4, 208, 412, 616]
    ∧ (calculate_layout (List.range 12) (fun _ => (1 : ℚ)) 820 4 4).1.map
        (fun e => e.2.2.2.2) = List.replicate 12 200
    ∧ (place (fun _ => (1 : ℚ)) 200 4 (List.range 12) (List.replicate 4 4)).2
        = List.replicate 4 (3 * 200 + 4 * 4)
    ∧ (calculate_layout (List.range 12) (fun _ => (1 : ℚ)) 820 4 4).2
        = 3 * 200 + 4 * 4 + 4 := by
  have hcw : max (50 : ℤ) ((820 - 4 * (((4 : ℕ) : ℤ) + 1)).fdiv ((4 : ℕ) : ℤ))
      = 200 := by decide
  have hpi : pyint (((200 : ℤ) : ℚ) / (1 : ℚ)) = 200 := by
    rw [div_one, pyint, if_pos (by positivity)]
    exact_mod_cast Int.floor_intCast (200 : ℤ)
  have hval : calculate_layout (List.range 12) (fun _ => (1 : ℚ)) 820 4 4
      = ([(0, 4, 4, 200, 200), (1, 208, 4, 200, 200), (2, 412, 4, 200, 200),
          (3, 616, 4, 200, 200), (4, 4, 208, 200, 200), (5, 208, 208, 200, 200),
          (6, 412, 208, 200, 200), (7, 616, 208, 200, 200),
          (8, 4, 412, 200, 200), (9, 208, 412, 200, 200),
          (10, 412, 412, 200, 200), (11, 616, 412, 200, 200)], 620) := by
    simp only [calculate_layout, hcw]
    simp only [List.range, List.range.loop, place, hpi]
    decide
  have hplace : (place (fun _ => (1 : ℚ)) 200 4 (List.range 12)
      (List.replicate 4 4)).2 = List.replicate 4 (3 * 200 + 4 * 4) := by
    simp only [List.range, List.range.loop, place, hpi]
    decide
  refine ⟨?_, by rw [hval]; decide, by rw [hval]; decide, hplace,
    by rw [hval]; decide⟩
  simp only [calculate_layout, masonry_layout_spec]
  have hw : (0 : ℤ) ≤ max 50 ((W - g * ((cols : ℤ) + 1)).fdiv (cols : ℤ)) :=
    le_trans (by norm_num) (le_max_left _ _)
  have hne : (place aspect (max 50 ((W - g * ((cols : ℤ) + 1)).fdiv (cols : ℤ))) g
      images (List.replicate cols g)).2 ≠ [] := by
    intro h0
    have hlen := place_heights_length aspect
      (max 50 ((W - g * ((cols : ℤ) + 1)).fdiv (cols : ℤ))) g images
      (List.replicate cols g)
    rw [h0] at hlen
    simp at hlen
    omega
  rw [place_eq_spec aspect _ g hw images (List.replicate cols g) ha] at hne ⊢
  rw [if_neg hne]

/-- Witness for `calculate_layout_spec_refinement`, at the scenario input
itself: 12 images of aspect ratio 1, 4 columns, gap 4, canvas width 820. -/
theorem calculate_layout_spec_refinement_witness :
    calculate_layout (List.range 12) (fun _ => (1 : ℚ)) 820 4 4
        = masonry_layout_spec (List.range 12) (fun _ => (1 : ℚ)) 820 4 4 :=
  (calculate_layout_spec_refinement (List.range 12) (fun _ => (1 : ℚ)) 820 4 4
    (by norm_num) (fun p _ => by norm_num)).1

theorem place_congr {α : Type} (aspect1 aspect2 : α → ℚ) (col_w gap : ℤ)
    (images : List α) (heights : List ℤ)
    (h : ∀ p ∈ images, aspect1 p = aspect2 p) :
    place aspect1 col_w gap images heights
      = place aspect2 col_w gap images heights := by
  induction images generalizing heights with
  | nil => rfl
  | cons p rest ih =>
    have hp := h p (List.mem_cons_self p rest)
    simp only [place, hp]
    rw [ih _ (fun p' hp' => h p' (List.mem_cons_of_mem p hp'))]

/-- C9. The layout computation is deterministic: two runs on the same ordered
image list, with memoized aspect ratios agreeing on every listed image, the
same canvas width, gap and column count, produce identical position lists and
total heights. (The embedding passes all state the Python method reads —
filtered list, aspect cache, canvas width, gap, column count — explicitly, so
this is exactly invariance of the output under equal inputs.) -/
theorem calculate_layout_deterministic {α : Type} (images1 images2 : List α)
    (aspect1 aspect2 : α → ℚ) (W1 W2 g1 g2 : ℤ) (cols1 cols2 : Nat)
    (himg : images1 = images2)
    (hasp : ∀ p ∈ images1, aspect1 p = aspect2 p)
    (hW : W1 = W2) (hg : g1 = g2) (hcols : cols1 = cols2) :
    calculate_layout images1 aspect1 W1 g1 cols1
      = calculate_layout images2 aspect2 W2 g2 cols2 := by
  subst himg hW hg hcols
  simp only [calculate_layout]
  rw [place_congr aspect1 aspect2 _ g1 images1 _ hasp]

/-- Witness for `calculate_layout_deterministic` at a concrete input. -/
theorem calculate_layout_deterministic_witness :
    calculate_layout [0, 1, 2] (fun _ => (1 : ℚ)) 400 4 3
      = calculate_layout [0, 1, 2] (fun _ => (1 : ℚ)) 400 4 3 :=
  calculate_layout_deterministic [0, 1, 2] [0, 1, 2] (fun _ => (1 : ℚ))
    (fun _ => (1 : ℚ)) 400 400 4 4 3 3 rfl (fun _ _ => rfl) rfl rfl rfl

/-- C4. In the "selected" view with exactly 2 (resp. 3) filtered items the
engine uses exactly 2 (resp. 3) columns, whatever the configured column
count; for any other item count — and in the non-selected view — it uses the
configured column count, provided that count is positive (the configuration
offers only 3–6; the internal sentinel 0 falls back to 4). -/
theorem determine_cols_special_cases (selected : Bool) (count : Nat) (ncols : ℤ) :
    (selected = true → count = 2 → determine_cols selected count ncols = 2)
    ∧ (selected = true → count = 3 → determine_cols selected count ncols = 3)
    ∧ (0 < ncols → ¬(selected = true ∧ (count = 2 ∨ count = 3)) →
        determine_cols selected count ncols = ncols) := by
  refine ⟨?_, ?_, ?_⟩
  · intro hs hc
    subst hs
    subst hc
    rfl
  · intro hs hc
    subst hs
    subst hc
    rfl
  · intro hpos hnot
    cases selected with
    | false =>
      simp only [determine_cols, Bool.false_eq_true, if_false]
      rw [if_pos hpos, if_neg (by omega)]
    | true =>
      have hc2 : count ≠ 2 := by
        intro h
        exact hnot ⟨rfl, Or.inl h⟩
      have hc3 : count ≠ 3 := by
        intro h
        exact hnot ⟨rfl, Or.inr h⟩
      simp only [determine_cols, if_true]
      rw [if_neg hc2, if_neg hc3, if_pos hpos, if_neg (by omega)]

/-- Witness for `determine_cols_special_cases`: with configured column count
5, two selected items force 2 columns, three force 3, and five items use the
configured 5. -/
theorem determine_cols_special_cases_witness :
    determine_cols true 2 5 = 2
    ∧ determine_cols true 3 5 = 3
    ∧ determine_cols true 5 5 = 5 := by
  refine ⟨(determine_cols_special_cases true 2 5).1 rfl rfl,
    (determine_cols_special_cases true 3 5).2.1 rfl rfl,
    (determine_cols_special_cases true 5 5).2.2 (by norm_num) ?_⟩
  intro h
  rcases h.2 with h2 | h3
  · exact absurd h2 (by norm_num)
  · exact absurd h3 (by norm_num)

/-! ## Viewport culling: `update_visible_thumbs` (src lines 2055–2109)

```python
visible_top = st_fraction * total_h
visible_bottom = visible_top + canvas_h + 600  # Add buffer (300 above, 300 below)
visible_top -= 300
for path, (x, y, w, h) in self.image_positions.items():
    if y + h < visible_top or y > visible_bottom:
        continue
    thumb = self.get_thumbnail(path, w)
    if thumb: ... draw ...
    else: ... placeholder ...
        priority = 10 if (visible_top + 300) <= y <= (visible_bottom - 300) else 5
        self.queue_thumbnail(path, w, priority)
```

Note that `visible_bottom` is computed from `visible_top` *before* the
`visible_top -= 300` shift, so the band extends 300 px above the viewport but
600 px below it. The thumbnail-cache lookup is abstracted to the predicate
`cached` and the per-entry outcome to a `Decision`. -/

inductive Decision where
  | skip
  | draw
  | placeholderEnqueue (priority : ℤ)
  deriving DecidableEq, Repr

def update_visible_thumbs {α : Type} (positions : List (α × ℤ × ℤ × ℤ × ℤ))
    (cached : α → ℤ → Bool) (total_h canvas_h : ℤ) (st_fraction : ℚ) :
    List (α × Decision) :=
  let visible_top0 : ℚ := st_fraction * (total_h : ℚ)
  let visible_bottom : ℚ := visible_top0 + (canvas_h : ℚ) + 600
  let visible_top : ℚ := visible_top0 - 300
  positions.map fun e =>
    match e with
    | (p, _, y, w, h) =>
      if ((y + h : ℤ) : ℚ) < visible_top ∨ ((y : ℤ) : ℚ) > visible_bottom then
        (p, Decision.skip)
      else if cached p w then (p, Decision.draw)
      else (p, Decision.placeholderEnqueue
        (if visible_top + 300 ≤ (y : ℚ) ∧ (y : ℚ) ≤ visible_bottom - 300 then 10
         else 5))

/-- C5, evaluation at the failing input. The claim's render band for scroll
fraction 0, total height 2000, viewport height 400 and overscan 300 is
`[0×2000 − 300, (0×2000 − 300) + 400 + 2×300] = [-300, 700]`. The entry
spanning `[850, 890]` lies entirely outside it (`850 > 700`), so by the claim
(and by the code's own comment, "Add buffer (300 above, 300 below)") it must
be skipped — yet the code draws a placeholder for it and enqueues it at
priority 5, because `visible_bottom` is computed before the top is shifted
down, making the lower buffer 600 px instead of 300. -/
theorem update_visible_thumbs_buffer_bug :
    ((0 : ℚ) * ((2000 : ℤ) : ℚ) - 300) + ((400 : ℤ) : ℚ) + 2 * 300 = 700
    ∧ (700 : ℚ) < 850
    ∧ update_visible_thumbs [((0 : Nat), (4 : ℤ), 850, 200, 40)]
        (fun _ _ => false) 2000 400 0
      = [(0, Decision.placeholderEnqueue 5)] := by
  refine ⟨by norm_num, by norm_num, ?_⟩
  norm_num [update_visible_thumbs]

/-! ## Zoom controller: `zoom_in_fn` / `zoom_out_fn` (src lines 1656–1667)

```python
def zoom_in_fn(self):
    self.zoom_level = min(5.0, self.zoom_level + 0.25)
def zoom_out_fn(self):
    self.zoom_level = max(0.25, self.zoom_level - 0.25)
    if self.zoom_level <= 1.0:
        self.pan_x = 0
        self.pan_y = 0
```
-/

structure ZoomPanState where
  zoom_level : ℚ
  pan_x : ℤ
  pan_y : ℤ
  deriving DecidableEq, Repr

def zoom_in_fn (s : ZoomPanState) : ZoomPanState :=
  { s with zoom_level := min 5.0 (s.zoom_level + 0.25) }

def zoom_out_fn (s : ZoomPanState) : ZoomPanState :=
  let z := max 0.25 (s.zoom_level - 0.25)
  if z ≤ 1.0 then { zoom_level := z, pan_x := 0, pan_y := 0 }
  else { s with zoom_level := z }

inductive ZoomOp where
  | zin
  | zout
  deriving DecidableEq, Repr

def runZoom (ops : List ZoomOp) (s : ZoomPanState) : ZoomPanState :=
  ops.foldl (fun s op =>
    match op with
    | .zin => zoom_in_fn s
    | .zout => zoom_out_fn s) s

theorem zoom_out_fn_zoom (s : ZoomPanState) :
    (zoom_out_fn s).zoom_level = max 0.25 (s.zoom_level - 0.25) := by
  rw [zoom_out_fn]
  by_cases h : max (0.25 : ℚ) (s.zoom_level - 0.25) ≤ 1.0
  · rw [if_pos h]
  · rw [if_neg h]

/-- C6, counterexample to "each step changing it by exactly 0.25": from the
initial zoom level 1.0, three zoom-outs reach the lower clamp 0.25, and a
fourth zoom-out leaves the level at 0.25 — a change of 0, not 0.25. -/
theorem zoom_step_saturates_cex :
    (runZoom (List.replicate 3 ZoomOp.zout) ⟨1.0, 0, 0⟩).zoom_level = 0.25
    ∧ (runZoom (List.replicate 4 ZoomOp.zout) ⟨1.0, 0, 0⟩).zoom_level = 0.25 := by
  norm_num [runZoom, zoom_out_fn, List.replicate, max_def]

/-- C6, amended. After every sequence of zoom-in/zoom-out operations from a
level inside the range, the zoom level stays within `[0.25, 5.0]`; each step
changes the level by exactly 0.25 except when the 0.25 step would cross a
range boundary, where the level saturates at that boundary; and after any
zoom-out that brings (or leaves) the level at ≤ 1.0, the pan offset is
exactly (0, 0). -/
theorem zoom_clamp_invariant (ops : List ZoomOp) (s : ZoomPanState)
    (h1 : 0.25 ≤ s.zoom_level) (h2 : s.zoom_level ≤ 5.0) :
    (0.25 ≤ (runZoom ops s).zoom_level ∧ (runZoom ops s).zoom_level ≤ 5.0)
    ∧ (∀ t : ZoomPanState, t.zoom_level + 0.25 ≤ 5.0 →
        (zoom_in_fn t).zoom_level = t.zoom_level + 0.25)
    ∧ (∀ t : ZoomPanState, 5.0 < t.zoom_level + 0.25 →
        (zoom_in_fn t).zoom_level = 5.0)
    ∧ (∀ t : ZoomPanState, 0.25 ≤ t.zoom_level - 0.25 →
        (zoom_out_fn t).zoom_level = t.zoom_level - 0.25)
    ∧ (∀ t : ZoomPanState, t.zoom_level - 0.25 < 0.25 →
        (zoom_out_fn t).zoom_level = 0.25)
    ∧ (∀ t : ZoomPanState, (zoom_out_fn t).zoom_level ≤ 1.0 →
        (zoom_out_fn t).pan_x = 0 ∧ (zoom_out_fn t).pan_y = 0) := by
  refine ⟨?_, ?_, ?_, ?_, ?_, ?_⟩
  · rw [runZoom]
    induction ops generalizing s with
    | nil => exact ⟨h1, h2⟩
    | cons op rest ih =>
      cases op with
      | zin =>
        refine ih (zoom_in_fn s) ?_ ?_
        · simp only [zoom_in_fn]
          exact le_min (by norm_num) (by linarith)
        · simp only [zoom_in_fn]
          exact min_le_left _ _
      | zout =>
        refine ih (zoom_out_fn s) ?_ ?_
        · rw [zoom_out_fn_zoom]
          exact le_max_left _ _
        · rw [zoom_out_fn_zoom]
          exact max_le (by norm_num) (by linarith)
  · intro t ht
    simp only [zoom_in_fn]
    exact min_eq_right ht
  · intro t ht
    simp only [zoom_in_fn]
    exact min_eq_left (le_of_lt ht)
  · intro t ht
    rw [zoom_out_fn_zoom]
    exact max_eq_right ht
  · intro t ht
    rw [zoom_out_fn_zoom]
    exact max_eq_left (le_of_lt ht)
  · intro t ht
    rw [zoom_out_fn]
    by_cases h : max (0.25 : ℚ) (t.zoom_level - 0.25) ≤ 1.0
    · rw [if_pos h]
      exact ⟨rfl, rfl⟩
    · rw [zoom_out_fn_zoom] at ht
      exact absurd ht h

/-- Witness for `zoom_clamp_invariant`: one zoom-out from the initial state
stays in range, and a zoom-out landing at 0.75 ≤ 1.0 resets a nonzero pan. -/
theorem zoom_clamp_invariant_witness :
    (0.25 ≤ (runZoom [ZoomOp.zout] ⟨1.0, 0, 0⟩).zoom_level
      ∧ (runZoom [ZoomOp.zout] ⟨1.0, 0, 0⟩).zoom_level ≤ 5.0)
    ∧ (zoom_out_fn ⟨1.0, 5, 7⟩).pan_x = 0 ∧ (zoom_out_fn ⟨1.0, 5, 7⟩).pan_y = 0 := by
  have h := zoom_clamp_invariant [ZoomOp.zout] ⟨1.0, 0, 0⟩ (by norm_num) (by norm_num)
  refine ⟨h.1, h.2.2.2.2.2 ⟨1.0, 5, 7⟩ ?_⟩
  rw [zoom_out_fn_zoom]
  norm_num [max_def]

/-! ## Thumbnail worker: one task of `thumbnail_worker` (src lines 1074–1105)

```python
path, width, priority = task
key = f"{path}_{width}"
if self.thumb_cache.get(key):
    continue
try:
    with Image.open(path) as img:
        aspect = img.width / img.height
        new_h = int(width / aspect)
        resample = Image.Resampling.LANCZOS if priority > 5 else Image.Resampling.BILINEAR
        thumb = img.resize((width, new_h), resample)
        self.result_queue.put((key, thumb, path))
except Exception:
    pass
```

The per-task body is a pure function of the cache-membership test and the
decode oracle; the string key `f"{path}_{width}"` is the pair
`(path, width)` (`str(width)` contains no underscore, so the encoding is
injective); a resized thumbnail is its dimensions plus the filter used; the
results the task pushes onto `result_queue` are returned as a list. -/

inductive Resample where
  | lanczos
  | bilinear
  deriving DecidableEq, Repr

structure ThumbTask where
  path : Nat
  width : ℤ
  priority : ℤ
  deriving DecidableEq, Repr

structure ThumbResult where
  cache_key : Nat × ℤ
  thumb_w : ℤ
  thumb_h : ℤ
  filter_used : Resample
  source_path : Nat
  deriving DecidableEq, Repr

def thumbnail_worker_step (cached : Nat × ℤ → Bool)
    (decode : Nat → Option (ℤ × ℤ)) (t : ThumbTask) : List ThumbResult :=
  let key := (t.path, t.width)
  if cached key then []
  else
    match decode t.path with
    | none => []
    | some (w, h) =>
      let aspect : ℚ := (w : ℚ) / (h : ℚ)
      let new_h := pyint ((t.width : ℚ) / aspect)
      let resample := if t.priority > 5 then Resample.lanczos else Resample.bilinear
      [{ cache_key := key, thumb_w := t.width, thumb_h := new_h,
         filter_used := resample, source_path := t.path }]

/-- C7. For every task a worker pops: if the thumbnail cache already holds the
task's key, the worker publishes nothing; if the decode fails it also
publishes nothing; otherwise it publishes exactly one Result for that task,
carrying the task's key and source path, a thumbnail of the target width
whose height is computed from that width and the decoded aspect ratio
(`int(width / (w/h))`), resampled with the higher-quality LANCZOS filter when
the priority is high (> 5, the elevated in-view priority 10) and the faster
BILINEAR filter when it is low (≤ 5, the buffer priority). -/
theorem thumbnail_worker_behavior (cached : Nat × ℤ → Bool)
    (decode : Nat → Option (ℤ × ℤ)) (t : ThumbTask) :
    (cached (t.path, t.width) = true →
        thumbnail_worker_step cached decode t = [])
    ∧ (cached (t.path, t.width) = false → decode t.path = none →
        thumbnail_worker_step cached decode t = [])
    ∧ (∀ w h, cached (t.path, t.width) = false → decode t.path = some (w, h) →
        thumbnail_worker_step cached decode t
          = [{ cache_key := (t.path, t.width), thumb_w := t.width,
               thumb_h := pyint ((t.width : ℚ) / ((w : ℚ) / (h : ℚ))),
               filter_used :=
                 if t.priority > 5 then Resample.lanczos else Resample.bilinear,
               source_path := t.path }]
        ∧ (thumbnail_worker_step cached decode t).length = 1
        ∧ (5 < t.priority →
            (thumbnail_worker_step cached decode t).map ThumbResult.filter_used
              = [Resample.lanczos])
        ∧ (t.priority ≤ 5 →
            (thumbnail_worker_step cached decode t).map ThumbResult.filter_used
              = [Resample.bilinear])) := by
  refine ⟨?_, ?_, ?_⟩
  · intro hc
    simp only [thumbnail_worker_step, hc, if_true]
  · intro hc hd
    simp only [thumbnail_worker_step, hc, Bool.false_eq_true, if_false, hd]
  · intro w h hc hd
    have hstep : thumbnail_worker_step cached decode t
        = [{ cache_key := (t.path, t.width), thumb_w := t.width,
             thumb_h := pyint ((t.width : ℚ) / ((w : ℚ) / (h : ℚ))),
             filter_used :=
               if t.priority > 5 then Resample.lanczos else Resample.bilinear,
             source_path := t.path }] := by
      simp only [thumbnail_worker_step, hc, Bool.false_eq_true, if_false, hd]
    refine ⟨hstep, by rw [hstep]; rfl, ?_, ?_⟩
    · intro hp
      rw [hstep]
      simp only [List.map_cons, List.map_nil]
      rw [if_pos hp]
    · intro hp
      rw [hstep]
      simp only [List.map_cons, List.map_nil]
      rw [if_neg (by omega)]

/-- Witness for `thumbnail_worker_behavior`: a cache miss on path 7 with a
4×3 source image at target width 120 and elevated priority 10 publishes one
LANCZOS result; the same task against a hit cache publishes nothing. -/
theorem thumbnail_worker_behavior_witness :
    thumbnail_worker_step (fun _ => true) (fun _ => some (4, 3)) ⟨7, 120, 10⟩ = []
    ∧ (thumbnail_worker_step (fun _ => false) (fun _ => some (4, 3))
        ⟨7, 120, 10⟩).map ThumbResult.filter_used = [Resample.lanczos]
    ∧ (thumbnail_worker_step (fun _ => false) (fun _ => none)
        ⟨7, 120, 10⟩) = [] := by
  refine ⟨(thumbnail_worker_behavior (fun _ => true) (fun _ => some (4, 3))
      ⟨7, 120, 10⟩).1 rfl, ?_, ?_⟩
  · exact (((thumbnail_worker_behavior (fun _ => false) (fun _ => some (4, 3))
      ⟨7, 120, 10⟩).2.2 4 3 rfl rfl).2.2.1 (by norm_num))
  · exact (thumbnail_worker_behavior (fun _ => false) (fun _ => none)
      ⟨7, 120, 10⟩).2.1 rfl rfl

/-! ## Aspect-ratio resolver: `get_aspect_ratio_fast` (src lines 1126–1138)

```python
if path in self.aspect_cache:
    return self.aspect_cache[path]
try:
    with Image.open(path) as img:
        ratio = img.width / img.height
    self.aspect_cache[path] = ratio
    return ratio
except:
    return 1.0
```

The memo dict is an association list passed in and returned; the decoder is
an oracle giving (width, height) or `none` on failure. -/

def get_aspect_ratio_fast (aspect_cache : List (Nat × ℚ))
    (decode : Nat → Option (ℤ × ℤ)) (path : Nat) : ℚ × List (Nat × ℚ) :=
  match lookup aspect_cache path with
  | some r => (r, aspect_cache)
  | none =>
    match decode path with
    | some (w, h) =>
      ((w : ℚ) / (h : ℚ), aspect_cache ++ [(path, (w : ℚ) / (h : ℚ))])
    | none => (1.0, aspect_cache)

/-- C8. On a decode failure the resolver returns the default ratio 1.0 and
leaves the memo unchanged — the path stays absent, so every subsequent call
for it consults the decoder again; on a successful decode of an unmemoized
path the ratio `w / h` is memoized and returned, and afterwards the lookup
for that path hits; a memoized path is answered from the memo with the memo
unchanged, independently of the decoder (no re-decoding). -/
theorem get_aspect_ratio_fast_memoization (aspect_cache : List (Nat × ℚ))
    (decode : Nat → Option (ℤ × ℤ)) (path : Nat) :
    (lookup aspect_cache path = none → decode path = none →
        get_aspect_ratio_fast aspect_cache decode path = (1.0, aspect_cache))
    ∧ (∀ w h, lookup aspect_cache path = none → decode path = some (w, h) →
        get_aspect_ratio_fast aspect_cache decode path
          = ((w : ℚ) / (h : ℚ), aspect_cache ++ [(path, (w : ℚ) / (h : ℚ))])
        ∧ lookup (aspect_cache ++ [(path, (w : ℚ) / (h : ℚ))]) path
            = some ((w : ℚ) / (h : ℚ)))
    ∧ (∀ r, lookup aspect_cache path = some r → ∀ decode2,
        get_aspect_ratio_fast aspect_cache decode2 path = (r, aspect_cache)) := by
  refine ⟨?_, ?_, ?_⟩
  · intro hl hd
    simp only [get_aspect_ratio_fast, hl, hd]
  · intro w h hl hd
    refine ⟨by simp only [get_aspect_ratio_fast, hl, hd], ?_⟩
    rw [lookup_append_of_none _ _ _ hl]
    simp [lookup]
  · intro r hl decode2
    simp only [get_aspect_ratio_fast, hl]

/-- Witness for `get_aspect_ratio_fast_memoization`: a failing decode of
path 3 on an empty memo returns ratio 1.0 and memoizes nothing; a successful
4×3 decode memoizes 4/3; a memoized path 3 ↦ 2 is answered without decoding. -/
theorem get_aspect_ratio_fast_memoization_witness :
    get_aspect_ratio_fast [] (fun _ => none) 3 = (1.0, [])
    ∧ get_aspect_ratio_fast [] (fun _ => some (4, 3)) 3
        = ((4 : ℚ) / (3 : ℚ), [(3, (4 : ℚ) / (3 : ℚ))])
    ∧ get_aspect_ratio_fast [(3, (2 : ℚ))] (fun _ => none) 3
        = ((2 : ℚ), [(3, (2 : ℚ))]) := by
  refine ⟨(get_aspect_ratio_fast_memoization [] (fun _ => none) 3).1 rfl rfl,
    ((get_aspect_ratio_fast_memoization [] (fun _ => some (4, 3)) 3).2.1
      4 3 rfl rfl).1,
    (get_aspect_ratio_fast_memoization [(3, (2 : ℚ))] (fun _ => none) 3).2.2
      2 ?_ (fun _ => none)⟩
  simp [lookup]

/-! ## Single-image navigation: `prev_img` / `next_img` (src lines 2173–2193)

```python
def prev_img(self):
    if self.filtered_images and self.current_index > 0:
        self.current_index -= 1
        self.pan_x = self.pan_y = 0
        self.zoom_level = 1.0
        ...
def next_img(self):
    if self.filtered_images and self.current_index < len(self.filtered_images) - 1:
        self.current_index += 1
        self.pan_x = self.pan_y = 0
        self.zoom_level = 1.0
        ...
```

`display_current_image` and the ghost arrows touch none of these fields. -/

structure NavState where
  filtered_images : List Nat
  current_index : Nat
  zoom_level : ℚ
  pan_x : ℤ
  pan_y : ℤ
  deriving DecidableEq, Repr

def prev_img (s : NavState) : NavState :=
  if s.filtered_images ≠ [] ∧ 0 < s.current_index then
    { s with
      current_index := s.current_index - 1
      pan_x := 0
      pan_y := 0
      zoom_level := 1.0 }
  else s

def next_img (s : NavState) : NavState :=
  if s.filtered_images ≠ [] ∧ s.current_index < s.filtered_images.length - 1 then
    { s with
      current_index := s.current_index + 1
      pan_x := 0
      pan_y := 0
      zoom_level := 1.0 }
  else s

/-- C10. For every nonempty filtered list with `current_index` in
`[0, length-1]`: both navigation operations keep the index in range;
`prev_img` at index 0 and `next_img` at the last index change nothing (index,
zoom and pan included); and every successful step moves the index by exactly
one while resetting the zoom level to 1.0 and the pan offsets to (0, 0). -/
theorem nav_index_invariant (s : NavState) (hne : s.filtered_images ≠ [])
    (hidx : s.current_index ≤ s.filtered_images.length - 1) :
    ((prev_img s).current_index ≤ s.filtered_images.length - 1
      ∧ (next_img s).current_index ≤ s.filtered_images.length - 1)
    ∧ (s.current_index = 0 → prev_img s = s)
    ∧ (s.current_index = s.filtered_images.length - 1 → next_img s = s)
    ∧ (0 < s.current_index →
        (prev_img s).current_index = s.current_index - 1
        ∧ (prev_img s).zoom_level = 1.0
        ∧ (prev_img s).pan_x = 0 ∧ (prev_img s).pan_y = 0)
    ∧ (s.current_index < s.filtered_images.length - 1 →
        (next_img s).current_index = s.current_index + 1
        ∧ (next_img s).zoom_level = 1.0
        ∧ (next_img s).pan_x = 0 ∧ (next_img s).pan_y = 0) := by
  refine ⟨⟨?_, ?_⟩, ?_, ?_, ?_, ?_⟩
  · rw [prev_img]
    by_cases h : s.filtered_images ≠ [] ∧ 0 < s.current_index
    · rw [if_pos h]
      simp only
      omega
    · rw [if_neg h]
      exact hidx
  · rw [next_img]
    by_cases h : s.filtered_images ≠ [] ∧ s.current_index < s.filtered_images.length - 1
    · rw [if_pos h]
      simp only
      omega
    · rw [if_neg h]
      exact hidx
  · intro h0
    rw [prev_img, if_neg (by omega)]
  · intro hl
    rw [next_img, if_neg (by omega)]
  · intro hpos
    rw [prev_img, if_pos ⟨hne, hpos⟩]
    exact ⟨rfl, rfl, rfl, rfl⟩
  · intro hlt
    rw [next_img, if_pos ⟨hne, hlt⟩]
    exact ⟨rfl, rfl, rfl, rfl⟩

/-- Witness for `nav_index_invariant` on the two-image list `[10, 20]` at
index 0: `prev_img` is a no-op and `next_img` steps to index 1 with zoom and
pan reset. -/
theorem nav_index_invariant_witness :
    prev_img ⟨[10, 20], 0, 2.0, 3, 4⟩ = ⟨[10, 20], 0, 2.0, 3, 4⟩
    ∧ (next_img ⟨[10, 20], 0, 2.0, 3, 4⟩).current_index = 1
    ∧ (next_img ⟨[10, 20], 0, 2.0, 3, 4⟩).zoom_level = 1.0 := by
  have h := nav_index_invariant ⟨[10, 20], 0, 2.0, 3, 4⟩ (by simp) (by simp)
  exact ⟨h.2.1 rfl, (h.2.2.2.2 (by simp)).1, (h.2.2.2.2 (by simp)).2.1⟩

end ImageFlow
